import Mathlib

/-!
Verification of the sequence-reduction engine of the sushi-themed
Post Correspondence Problem puzzle game.

Belts are JavaScript strings; we embed them as `List Char` (symbol order
left to right, index 0 is the head).  The engine lives in
`src/utils/pairLogic.ts` in two variants:

* `removePairs` (simple variant): checks only the head pair and removes at
  most one pair per call;
* `removeAllPairs` (animated variant): loops from the heads, removing pairs
  until the heads no longer match or a belt is exhausted.

Both cancel a head pair exactly when one head is 'S' (sashimi) and the other
is 'T' (tampopo).  `isCleared` tests that both belts are empty.

The animated variant additionally returns per-element animation states and
"merged element" display records (positions, ids derived from `Date.now()`);
those fields are pure presentation output, the spec declares them out of
scope, and they are not embedded here.  The belt remainders, removed-pair
list (with the consumed indices) and the removal flag are embedded in full.
-/

/-- The head-pair matching test of the engine: the condition
`(topChar === 'S' && bottomChar === 'T') || (topChar === 'T' && bottomChar === 'S')`
shared verbatim by `removePairs` and `removeAllPairs`. -/
def isPair (topChar bottomChar : Char) : Bool :=
  (topChar == 'S' && bottomChar == 'T') || (topChar == 'T' && bottomChar == 'S')

/-- An element of the `removedPairs` array of the simple variant
(`removePairs` in `pairLogic.ts`): `{ top, bottom }`. -/
structure SimplePair where
  top : Char
  bottom : Char
deriving DecidableEq, Repr

/-- Result record of the simple variant (`PairRemovalResult` of
`pairLogic.ts`). -/
structure PairRemovalResult where
  newTopBelt : List Char
  newBottomBelt : List Char
  removedPairs : List SimplePair
  hasRemovals : Bool
deriving DecidableEq, Repr

/-- `removePairs` of `pairLogic.ts`: if both belts are non-empty and the two
heads form an S/T pair, remove both heads and record the pair; otherwise
return both belts unchanged. -/
def removePairs (topBelt bottomBelt : List Char) : PairRemovalResult :=
  match topBelt, bottomBelt with
  | topChar :: ts, bottomChar :: bs =>
    if isPair topChar bottomChar then
      { newTopBelt := ts
        newBottomBelt := bs
        removedPairs := [⟨topChar, bottomChar⟩]
        hasRemovals := true }
    else
      { newTopBelt := topChar :: ts
        newBottomBelt := bottomChar :: bs
        removedPairs := []
        hasRemovals := false }
  | ts, bs =>
      { newTopBelt := ts
        newBottomBelt := bs
        removedPairs := []
        hasRemovals := false }

/-- An element of the `allRemovedPairs` array of the animated variant
(`removeAllPairs`): `{ top, bottom, topIndex, bottomIndex }`, where the
indices record how many symbols of each belt were consumed before this
pair. -/
structure RemovedPair where
  top : Char
  bottom : Char
  topIndex : Nat
  bottomIndex : Nat
deriving DecidableEq, Repr

/-- Result record of the animated variant (the belt / pair / flag fields of
its `PairRemovalResult`). -/
structure AllPairsResult where
  newTopBelt : List Char
  newBottomBelt : List Char
  removedPairs : List RemovedPair
  hasRemovals : Bool
deriving DecidableEq, Repr

/-- The `while` loop of `removeAllPairs`: while both belts are non-empty and
the heads form an S/T pair, consume both heads, recording the pair together
with the running `consumedTop` / `consumedBottom` counters; stop at the
first non-matching position or when a belt is exhausted.  Returns the
accumulated pairs and the two remainders. -/
def removeLoop : List Char → List Char → Nat → Nat →
    List RemovedPair × List Char × List Char
  | topChar :: ts, bottomChar :: bs, consumedTop, consumedBottom =>
    if isPair topChar bottomChar then
      let r := removeLoop ts bs (consumedTop + 1) (consumedBottom + 1)
      (⟨topChar, bottomChar, consumedTop, consumedBottom⟩ :: r.1, r.2)
    else ([], topChar :: ts, bottomChar :: bs)
  | ts, bs, _, _ => ([], ts, bs)

/-- `removeAllPairs` of `pairLogic.ts` (animated variant): run the removal
loop from the heads with both counters starting at 0; `hasRemovals` is true
iff at least one pair was removed. -/
def removeAllPairs (topBelt bottomBelt : List Char) : AllPairsResult :=
  let r := removeLoop topBelt bottomBelt 0 0
  { newTopBelt := r.2.1
    newBottomBelt := r.2.2
    removedPairs := r.1
    hasRemovals := !r.1.isEmpty }

/-- `isCleared` of `pairLogic.ts` (the animated file defines it
identically): both belts have length 0. -/
def isCleared (topBelt bottomBelt : List Char) : Bool :=
  topBelt.length == 0 && bottomBelt.length == 0

theorem removeLoop_nil_left (b : List Char) (ct cb : Nat) :
    removeLoop [] b ct cb = ([], [], b) := by
  cases b <;> rfl

theorem removeLoop_nil_right (c : Char) (ts : List Char) (ct cb : Nat) :
    removeLoop (c :: ts) [] ct cb = ([], c :: ts, []) := rfl

theorem removeLoop_cons_cons (c d : Char) (ts bs : List Char) (ct cb : Nat) :
    removeLoop (c :: ts) (d :: bs) ct cb =
      if isPair c d then
        let r := removeLoop ts bs (ct + 1) (cb + 1)
        (⟨c, d, ct, cb⟩ :: r.1, r.2)
      else ([], c :: ts, d :: bs) := rfl

/-- Characterisation of `isPair`: exactly the two literal S/T combinations. -/
theorem isPair_iff (c d : Char) :
    isPair c d = true ↔ (c = 'S' ∧ d = 'T') ∨ (c = 'T' ∧ d = 'S') := by
  simp [isPair]

/-- The remainders returned by the loop are the input belts with the removed
prefix dropped. -/
theorem removeLoop_drop (t : List Char) :
    ∀ (b : List Char) (ct cb : Nat),
      (removeLoop t b ct cb).2.1 = t.drop (removeLoop t b ct cb).1.length ∧
      (removeLoop t b ct cb).2.2 = b.drop (removeLoop t b ct cb).1.length := by
  induction t with
  | nil => intro b ct cb; simp [removeLoop_nil_left]
  | cons c ts ih =>
    intro b ct cb
    cases b with
    | nil => simp [removeLoop_nil_right]
    | cons d bs =>
      rw [removeLoop_cons_cons]
      by_cases h : isPair c d
      · have h1 := (ih bs (ct + 1) (cb + 1)).1
        have h2 := (ih bs (ct + 1) (cb + 1)).2
        simp [h, h1, h2]
      · simp [h]

/-- The removed pairs are exactly the pointwise zip of the two consumed
prefixes, in scan order. -/
theorem removeLoop_pairs (t : List Char) :
    ∀ (b : List Char) (ct cb : Nat),
      (removeLoop t b ct cb).1.map (fun p => (p.top, p.bottom)) =
        (t.zip b).take (removeLoop t b ct cb).1.length := by
  induction t with
  | nil => intro b ct cb; simp [removeLoop_nil_left]
  | cons c ts ih =>
    intro b ct cb
    cases b with
    | nil => simp [removeLoop_nil_right]
    | cons d bs =>
      rw [removeLoop_cons_cons]
      by_cases h : isPair c d
      · have h1 := ih bs (ct + 1) (cb + 1)
        simp [h, h1]
      · simp [h]

/-- Every pair recorded by the loop satisfies the S/T matching test. -/
theorem removeLoop_mem_isPair (t : List Char) :
    ∀ (b : List Char) (ct cb : Nat) (p : RemovedPair),
      p ∈ (removeLoop t b ct cb).1 → isPair p.top p.bottom = true := by
  induction t with
  | nil => intro b ct cb p hp; simp [removeLoop_nil_left] at hp
  | cons c ts ih =>
    intro b ct cb p hp
    cases b with
    | nil => simp [removeLoop_nil_right] at hp
    | cons d bs =>
      rw [removeLoop_cons_cons] at hp
      by_cases h : isPair c d
      · simp [h] at hp
        rcases hp with hp | hp
        · subst hp; exact h
        · exact ih bs (ct + 1) (cb + 1) p hp
      · simp [h] at hp

/-- When the loop stops with both remainders non-empty, their heads do not
form an S/T pair. -/
theorem removeLoop_stops (t : List Char) :
    ∀ (b : List Char) (ct cb : Nat) (x y : Char) (xs ys : List Char),
      (removeLoop t b ct cb).2.1 = x :: xs →
      (removeLoop t b ct cb).2.2 = y :: ys →
      isPair x y = false := by
  induction t with
  | nil => intro b ct cb x y xs ys hx hy; simp [removeLoop_nil_left] at hx
  | cons c ts ih =>
    intro b ct cb x y xs ys hx hy
    cases b with
    | nil => simp [removeLoop_nil_right] at hy
    | cons d bs =>
      rw [removeLoop_cons_cons] at hx hy
      by_cases h : isPair c d
      · simp [h] at hx hy
        exact ih bs (ct + 1) (cb + 1) x y xs ys hx hy
      · simp [h] at hx hy
        rw [← hx.1, ← hy.1]
        simp [h]

/-- The number of removed pairs never exceeds either belt's length. -/
theorem removeLoop_length_le (t : List Char) :
    ∀ (b : List Char) (ct cb : Nat),
      (removeLoop t b ct cb).1.length ≤ t.length ∧
      (removeLoop t b ct cb).1.length ≤ b.length := by
  induction t with
  | nil => intro b ct cb; simp [removeLoop_nil_left]
  | cons c ts ih =>
    intro b ct cb
    cases b with
    | nil => simp [removeLoop_nil_right]
    | cons d bs =>
      rw [removeLoop_cons_cons]
      by_cases h : isPair c d
      · have := ih bs (ct + 1) (cb + 1)
        simp [h]
        omega
      · simp [h]

/-- Specification-side scan, written from the spec's contract wording for
comparison with `removeAllPairs`: scan from index 0 of both sequences
simultaneously; while both are non-empty and the current head symbols are
unequal, remove both heads and record the pair; stop at the first position
where the heads are equal or either sequence is exhausted. -/
def specScanUnequal : List Char → List Char → List (Char × Char) × List Char × List Char
  | c :: ts, d :: bs =>
    if c ≠ d then
      let r := specScanUnequal ts bs
      ((c, d) :: r.1, r.2)
    else ([], c :: ts, d :: bs)
  | ts, bs => ([], ts, bs)

theorem specScanUnequal_nil_left (b : List Char) :
    specScanUnequal [] b = ([], [], b) := by
  cases b <;> rfl

theorem specScanUnequal_nil_right (c : Char) (ts : List Char) :
    specScanUnequal (c :: ts) [] = ([], c :: ts, []) := rfl

theorem specScanUnequal_cons_cons (c d : Char) (ts bs : List Char) :
    specScanUnequal (c :: ts) (d :: bs) =
      if c ≠ d then
        let r := specScanUnequal ts bs
        ((c, d) :: r.1, r.2)
      else ([], c :: ts, d :: bs) := rfl

/-- Over the game's two-symbol alphabet, the S/T matching test coincides
with head inequality. -/
theorem isPair_eq_ne (c d : Char) (hc : c = 'S' ∨ c = 'T')
    (hd : d = 'S' ∨ d = 'T') : isPair c d = true ↔ c ≠ d := by
  rcases hc with hc | hc <;> rcases hd with hd | hd <;> subst hc <;> subst hd <;>
    simp [isPair]

/-- On belts drawn from the two-symbol alphabet, the loop computes exactly
the spec's unequal-heads scan. -/
theorem removeLoop_eq_specScan (t : List Char) :
    ∀ (b : List Char) (ct cb : Nat),
      (∀ c ∈ t, c = 'S' ∨ c = 'T') → (∀ c ∈ b, c = 'S' ∨ c = 'T') →
      ((removeLoop t b ct cb).1.map (fun p => (p.top, p.bottom)),
        (removeLoop t b ct cb).2.1, (removeLoop t b ct cb).2.2) =
        specScanUnequal t b := by
  induction t with
  | nil =>
    intro b ct cb ht hb
    simp [removeLoop_nil_left, specScanUnequal_nil_left]
  | cons c ts ih =>
    intro b ct cb ht hb
    cases b with
    | nil => simp [removeLoop_nil_right, specScanUnequal_nil_right]
    | cons d bs =>
      have hc : c = 'S' ∨ c = 'T' := ht c (by simp)
      have hd : d = 'S' ∨ d = 'T' := hb d (by simp)
      rw [removeLoop_cons_cons, specScanUnequal_cons_cons]
      by_cases h : isPair c d
      · have hne : c ≠ d := (isPair_eq_ne c d hc hd).mp h
        have hrest := ih bs (ct + 1) (cb + 1)
          (fun x hx => ht x (by simp [hx])) (fun x hx => hb x (by simp [hx]))
        simp [h, hne, ← hrest]
      · have hne : ¬ c ≠ d := fun hcd => h ((isPair_eq_ne c d hc hd).mpr hcd)
        simp [h, hne]

/-- If a belt is empty or the heads do not match, the loop removes nothing. -/
theorem removeLoop_noop (t b : List Char) (ct cb : Nat)
    (h : ∀ x xs y ys, t = x :: xs → b = y :: ys → isPair x y = false) :
    removeLoop t b ct cb = ([], t, b) := by
  cases t with
  | nil => exact removeLoop_nil_left b ct cb
  | cons c ts =>
    cases b with
    | nil => exact removeLoop_nil_right c ts ct cb
    | cons d bs =>
      rw [removeLoop_cons_cons]
      simp [h c ts d bs rfl rfl]

/-- A removal by the single-step reducer strictly shortens the top belt,
which lets the iterated reducer recurse on top-belt length. -/
theorem removePairs_shrinks (t b : List Char)
    (h : (removePairs t b).hasRemovals = true) :
    (removePairs t b).newTopBelt.length < t.length := by
  cases t with
  | nil => cases b <;> simp [removePairs] at h
  | cons c ts =>
    cases b with
    | nil => simp [removePairs] at h
    | cons d bs =>
      by_cases hp : isPair c d
      · simp [removePairs, hp]
      · simp [removePairs, hp] at h

/-- Iterating the single-step reducer `removePairs` until `hasRemovals` is
false, concatenating the removed pairs in order.  This is the caller-side
loop the simple game board realises across animation steps. -/
def iterateRemovePairs (topBelt bottomBelt : List Char) :
    List SimplePair × List Char × List Char :=
  let r := removePairs topBelt bottomBelt
  if h : r.hasRemovals = true then
    let rest := iterateRemovePairs r.newTopBelt r.newBottomBelt
    (r.removedPairs ++ rest.1, rest.2)
  else (r.removedPairs, r.newTopBelt, r.newBottomBelt)
termination_by topBelt.length
decreasing_by exact removePairs_shrinks topBelt bottomBelt h

/-- The counters fed to the loop only decorate the recorded indices: the
symbol pairs and the remainders do not depend on them. -/
theorem removeLoop_counter_indep (t : List Char) :
    ∀ (b : List Char) (ct cb ct' cb' : Nat),
      (removeLoop t b ct cb).1.map (fun p => (p.top, p.bottom)) =
        (removeLoop t b ct' cb').1.map (fun p => (p.top, p.bottom)) ∧
      (removeLoop t b ct cb).2 = (removeLoop t b ct' cb').2 := by
  induction t with
  | nil => intro b ct cb ct' cb'; simp [removeLoop_nil_left]
  | cons c ts ih =>
    intro b ct cb ct' cb'
    cases b with
    | nil => simp [removeLoop_nil_right]
    | cons d bs =>
      rw [removeLoop_cons_cons, removeLoop_cons_cons]
      by_cases h : isPair c d
      · have := ih bs (ct + 1) (cb + 1) (ct' + 1) (cb' + 1)
        simp [h, this.1, this.2]
      · simp [h]

theorem iterateRemovePairs_of_not_hasRemovals (t b : List Char)
    (h : (removePairs t b).hasRemovals = false) :
    iterateRemovePairs t b =
      ((removePairs t b).removedPairs, (removePairs t b).newTopBelt,
        (removePairs t b).newBottomBelt) := by
  rw [iterateRemovePairs]
  simp [h]

theorem iterateRemovePairs_of_hasRemovals (t b : List Char)
    (h : (removePairs t b).hasRemovals = true) :
    iterateRemovePairs t b =
      ((removePairs t b).removedPairs ++
          (iterateRemovePairs (removePairs t b).newTopBelt
            (removePairs t b).newBottomBelt).1,
        (iterateRemovePairs (removePairs t b).newTopBelt
          (removePairs t b).newBottomBelt).2) := by
  rw [iterateRemovePairs]
  simp [h]

/-- C9: the multi-pair reducer refines the single-step reducer: iterating
`removePairs` until `hasRemovals` is false yields the same final belts and
the same concatenated ordered sequence of removed (top, bottom) pairs as a
single call to `removeAllPairs`. -/
theorem iterateRemovePairs_eq_removeAllPairs (t : List Char) :
    ∀ b : List Char,
      (iterateRemovePairs t b).1.map (fun p => (p.top, p.bottom)) =
        (removeAllPairs t b).removedPairs.map (fun p => (p.top, p.bottom)) ∧
      (iterateRemovePairs t b).2.1 = (removeAllPairs t b).newTopBelt ∧
      (iterateRemovePairs t b).2.2 = (removeAllPairs t b).newBottomBelt := by
  induction t with
  | nil =>
    intro b
    have h : (removePairs [] b).hasRemovals = false := by
      cases b <;> simp [removePairs]
    have hb : (removePairs [] b) =
        { newTopBelt := [], newBottomBelt := b, removedPairs := [],
          hasRemovals := false } := by
      cases b <;> simp [removePairs]
    simp [iterateRemovePairs_of_not_hasRemovals [] b h, hb, removeAllPairs,
      removeLoop_nil_left]
  | cons c ts ih =>
    intro b
    cases b with
    | nil =>
      have h : (removePairs (c :: ts) []).hasRemovals = false := by
        simp [removePairs]
      simp [iterateRemovePairs_of_not_hasRemovals (c :: ts) [] h, removePairs,
        removeAllPairs, removeLoop_nil_right]
    | cons d bs =>
      by_cases hp : isPair c d
      · have hstep : removePairs (c :: ts) (d :: bs) =
            { newTopBelt := ts, newBottomBelt := bs,
              removedPairs := [⟨c, d⟩], hasRemovals := true } := by
          simp [removePairs, hp]
        have h : (removePairs (c :: ts) (d :: bs)).hasRemovals = true := by
          rw [hstep]
        have hiter := iterateRemovePairs_of_hasRemovals (c :: ts) (d :: bs) h
        rw [hstep] at hiter
        have hrec := ih bs
        have hcounter := removeLoop_counter_indep ts bs 1 1 0 0
        rw [hiter]
        simp only [removeAllPairs, removeLoop_cons_cons, hp, if_true] at hrec ⊢
        simp [hrec.1, hrec.2.1, hrec.2.2, hcounter.1, hcounter.2]
      · have hstep : removePairs (c :: ts) (d :: bs) =
            { newTopBelt := c :: ts, newBottomBelt := d :: bs,
              removedPairs := [], hasRemovals := false } := by
          simp [removePairs, hp]
        have h : (removePairs (c :: ts) (d :: bs)).hasRemovals = false := by
          rw [hstep]
        have hiter := iterateRemovePairs_of_not_hasRemovals (c :: ts) (d :: bs) h
        rw [hstep] at hiter
        rw [hiter]
        simp [removeAllPairs, removeLoop_cons_cons, hp]

/-- C1: on belts over the game's two-symbol alphabet {S, T} (the spec's
`Sequence` data type), `removeAllPairs` scans from index 0 of both belts
simultaneously and, while both remainders are non-empty and the head symbols
are unequal, removes both heads and appends the pair in scan order to
`removedPairs`, stopping at the first position where the heads are equal or
a belt is exhausted; `newTopBelt` and `newBottomBelt` are exactly the
remainders at the stopping point (i.e. the output coincides with the spec's
unequal-heads scan `specScanUnequal`). -/
theorem removeAllPairs_eq_specScanUnequal (t b : List Char)
    (ht : ∀ c ∈ t, c = 'S' ∨ c = 'T') (hb : ∀ c ∈ b, c = 'S' ∨ c = 'T') :
    ((removeAllPairs t b).removedPairs.map (fun p => (p.top, p.bottom)),
      (removeAllPairs t b).newTopBelt, (removeAllPairs t b).newBottomBelt) =
      specScanUnequal t b := by
  simpa [removeAllPairs] using removeLoop_eq_specScan t b 0 0 ht hb

theorem removeAllPairs_eq_specScanUnequal_witness :
    (∀ c ∈ ['S', 'T', 'S'], c = 'S' ∨ c = 'T') ∧
    (∀ c ∈ ['T', 'T'], c = 'S' ∨ c = 'T') ∧
    ((removeAllPairs ['S', 'T', 'S'] ['T', 'T']).removedPairs.map
        (fun p => (p.top, p.bottom)),
      (removeAllPairs ['S', 'T', 'S'] ['T', 'T']).newTopBelt,
      (removeAllPairs ['S', 'T', 'S'] ['T', 'T']).newBottomBelt) =
      specScanUnequal ['S', 'T', 'S'] ['T', 'T'] :=
  ⟨by decide, by decide,
    removeAllPairs_eq_specScanUnequal ['S', 'T', 'S'] ['T', 'T']
      (by decide) (by decide)⟩

/-- C2 counterexample: reducing top "SS" against bottom "TT" is NOT a no-op:
the heads S and T differ at both steps, so the code removes two pairs; the
claimed outputs (no removed pairs, `hasRemovals` false, belts unchanged) are
all wrong. -/
theorem claim2_SS_TT_counterexample :
    ¬ ((removeAllPairs ['S', 'S'] ['T', 'T']).removedPairs = [] ∧
        (removeAllPairs ['S', 'S'] ['T', 'T']).hasRemovals = false ∧
        (removeAllPairs ['S', 'S'] ['T', 'T']).newTopBelt = ['S', 'S'] ∧
        (removeAllPairs ['S', 'S'] ['T', 'T']).newBottomBelt = ['T', 'T']) := by
  decide

/-- C2 amended: reducing top "SS" against bottom "TT" removes the pair
(S, T) twice (at positions 0 and 1), leaves both belts empty with
`hasRemovals` true, and the result is cleared; the single-step `removePairs`
removes one (S, T) pair, leaving "S" and "T". -/
theorem claim2_SS_TT_amended :
    removeAllPairs ['S', 'S'] ['T', 'T'] =
      { newTopBelt := []
        newBottomBelt := []
        removedPairs := [⟨'S', 'T', 0, 0⟩, ⟨'S', 'T', 1, 1⟩]
        hasRemovals := true } ∧
    isCleared (removeAllPairs ['S', 'S'] ['T', 'T']).newTopBelt
      (removeAllPairs ['S', 'S'] ['T', 'T']).newBottomBelt = true ∧
    removePairs ['S', 'S'] ['T', 'T'] =
      { newTopBelt := ['S']
        newBottomBelt := ['T']
        removedPairs := [⟨'S', 'T'⟩]
        hasRemovals := true } := by
  decide

/-- C3: reduction is idempotent: applying `removeAllPairs` to the reduced
outputs of a first application removes nothing (`removedPairs` empty,
`hasRemovals` false) and leaves both remainders unchanged. -/
theorem removeAllPairs_idempotent (t b : List Char) :
    removeAllPairs (removeAllPairs t b).newTopBelt
        (removeAllPairs t b).newBottomBelt =
      { newTopBelt := (removeAllPairs t b).newTopBelt
        newBottomBelt := (removeAllPairs t b).newBottomBelt
        removedPairs := []
        hasRemovals := false } := by
  have hnoop := removeLoop_noop (removeLoop t b 0 0).2.1 (removeLoop t b 0 0).2.2
    0 0 (fun x xs y ys h1 h2 => removeLoop_stops t b 0 0 x y xs ys h1 h2)
  simp [removeAllPairs, hnoop]

/-- C4: the total length removed equals twice the number of removed pairs,
for `removeAllPairs` and for the single-step `removePairs`, whose pair list
has length at most 1. -/
theorem reduction_length_change (t b : List Char) :
    t.length + b.length -
        ((removeAllPairs t b).newTopBelt.length +
          (removeAllPairs t b).newBottomBelt.length) =
      2 * (removeAllPairs t b).removedPairs.length ∧
    t.length + b.length -
        ((removePairs t b).newTopBelt.length +
          (removePairs t b).newBottomBelt.length) =
      2 * (removePairs t b).removedPairs.length ∧
    (removePairs t b).removedPairs.length ≤ 1 := by
  refine ⟨?_, ?_, ?_⟩
  · have hdrop := removeLoop_drop t b 0 0
    have hle := removeLoop_length_le t b 0 0
    simp only [removeAllPairs, hdrop.1, hdrop.2, List.length_drop]
    omega
  · cases t with
    | nil => cases b <;> simp [removePairs]
    | cons c ts =>
      cases b with
      | nil => simp [removePairs]
      | cons d bs =>
        by_cases hp : isPair c d <;> simp [removePairs, hp] <;> omega
  · cases t with
    | nil => cases b <;> simp [removePairs]
    | cons c ts =>
      cases b with
      | nil => simp [removePairs]
      | cons d bs =>
        by_cases hp : isPair c d <;> simp [removePairs, hp]

/-- C5: `isCleared` returns true iff both belts have length zero; in
particular the solved flag of a reduction result — `isCleared` applied to
the two remainders, as the game board computes it — is true iff both
remainders are empty. -/
theorem isCleared_iff_both_empty (t b : List Char) :
    (isCleared t b = true ↔ t.length = 0 ∧ b.length = 0) ∧
    (isCleared (removeAllPairs t b).newTopBelt
        (removeAllPairs t b).newBottomBelt = true ↔
      (removeAllPairs t b).newTopBelt = [] ∧
        (removeAllPairs t b).newBottomBelt = []) := by
  constructor <;> simp [isCleared, List.length_eq_zero]

/-- C6: reduction never reorders symbols and only removes a head-aligned
prefix: the remainders are the inputs with the first k symbols dropped,
where k is the number of removed pairs, and the i-th removed pair is exactly
(topBelt[i], bottomBelt[i]) — the removed-pair list is the pointwise zip of
the two consumed prefixes. -/
theorem removeAllPairs_prefix_aligned (t b : List Char) :
    (removeAllPairs t b).newTopBelt =
      t.drop (removeAllPairs t b).removedPairs.length ∧
    (removeAllPairs t b).newBottomBelt =
      b.drop (removeAllPairs t b).removedPairs.length ∧
    (removeAllPairs t b).removedPairs.map (fun p => (p.top, p.bottom)) =
      (t.zip b).take (removeAllPairs t b).removedPairs.length := by
  exact ⟨(removeLoop_drop t b 0 0).1, (removeLoop_drop t b 0 0).2,
    removeLoop_pairs t b 0 0⟩

/-- C7: empty input on either side is a no-op for both reducers, and the
state is solved iff both belts are empty. -/
theorem empty_side_noop (t b : List Char) (h : t = [] ∨ b = []) :
    removeAllPairs t b =
      { newTopBelt := t, newBottomBelt := b, removedPairs := [],
        hasRemovals := false } ∧
    removePairs t b =
      { newTopBelt := t, newBottomBelt := b, removedPairs := [],
        hasRemovals := false } ∧
    (isCleared t b = true ↔ t = [] ∧ b = []) := by
  rcases h with h | h <;> subst h
  · refine ⟨?_, ?_, ?_⟩ <;>
      cases b <;>
        simp [removeAllPairs, removeLoop_nil_left, removePairs, isCleared,
          List.length_eq_zero]
  · refine ⟨?_, ?_, ?_⟩ <;>
      cases t <;>
        simp [removeAllPairs, removeLoop_nil_left, removeLoop_nil_right,
          removePairs, isCleared, List.length_eq_zero]

theorem empty_side_noop_witness :
    (([] : List Char) = [] ∨ (['S'] : List Char) = []) ∧
    (removeAllPairs [] ['S'] =
      { newTopBelt := [], newBottomBelt := ['S'], removedPairs := [],
        hasRemovals := false } ∧
    removePairs [] ['S'] =
      { newTopBelt := [], newBottomBelt := ['S'], removedPairs := [],
        hasRemovals := false } ∧
    (isCleared [] ['S'] = true ↔ ([] : List Char) = [] ∧ ['S'] = [])) :=
  ⟨Or.inl rfl, empty_side_noop [] ['S'] (Or.inl rfl)⟩

/-- C8: reducing top "ST" against bottom "TS" removes the pair (S, T) and
then the pair (T, S) in that order, leaves both belts empty, and the
resulting state is cleared. -/
theorem claim8_ST_TS_solved :
    removeAllPairs ['S', 'T'] ['T', 'S'] =
      { newTopBelt := []
        newBottomBelt := []
        removedPairs := [⟨'S', 'T', 0, 0⟩, ⟨'T', 'S', 1, 1⟩]
        hasRemovals := true } ∧
    isCleared (removeAllPairs ['S', 'T'] ['T', 'S']).newTopBelt
      (removeAllPairs ['S', 'T'] ['T', 'S']).newBottomBelt = true := by
  decide

/-- C10: cancellation happens only for the literal symbols S and T: every
recorded pair is (S, T) or (T, S), and when either head lies outside
{S, T} (e.g. the digits 0 or 1) no removal occurs there even if the two
heads are unequal — both reducers return everything unchanged. -/
theorem removals_only_ST (t b : List Char) :
    (∀ p ∈ (removeAllPairs t b).removedPairs,
      (p.top = 'S' ∧ p.bottom = 'T') ∨ (p.top = 'T' ∧ p.bottom = 'S')) ∧
    (∀ q ∈ (removePairs t b).removedPairs,
      (q.top = 'S' ∧ q.bottom = 'T') ∨ (q.top = 'T' ∧ q.bottom = 'S')) ∧
    (∀ (c d : Char) (ts bs : List Char),
      ¬ (c = 'S' ∨ c = 'T') ∨ ¬ (d = 'S' ∨ d = 'T') →
      removeAllPairs (c :: ts) (d :: bs) =
        { newTopBelt := c :: ts, newBottomBelt := d :: bs,
          removedPairs := [], hasRemovals := false } ∧
      removePairs (c :: ts) (d :: bs) =
        { newTopBelt := c :: ts, newBottomBelt := d :: bs,
          removedPairs := [], hasRemovals := false }) := by
  refine ⟨?_, ?_, ?_⟩
  · intro p hp
    have hmem : p ∈ (removeLoop t b 0 0).1 := by
      simpa [removeAllPairs] using hp
    exact (isPair_iff p.top p.bottom).mp (removeLoop_mem_isPair t b 0 0 p hmem)
  · intro q hq
    cases t with
    | nil => cases b <;> simp [removePairs] at hq
    | cons c ts =>
      cases b with
      | nil => simp [removePairs] at hq
      | cons d bs =>
        by_cases hp : isPair c d
        · simp [removePairs, hp] at hq
          subst hq
          simpa using (isPair_iff c d).mp hp
        · simp [removePairs, hp] at hq
  · intro c d ts bs hcd
    have hp : isPair c d = false := by
      rcases hcd with hc | hd
      · push_neg at hc
        simp [isPair, hc.1, hc.2]
      · push_neg at hd
        simp [isPair, hd.1, hd.2]
    constructor
    · simp [removeAllPairs, removeLoop_cons_cons, hp]
    · simp [removePairs, hp]

theorem removals_only_ST_witness :
    ((('0' : Char) = 'S' ∧ ('1' : Char) = 'T') ∨
        (('0' : Char) = 'T' ∧ ('1' : Char) = 'S') → False) ∧
    (¬ (('0' : Char) = 'S' ∨ ('0' : Char) = 'T') ∨
      ¬ (('1' : Char) = 'S' ∨ ('1' : Char) = 'T')) ∧
    (removeAllPairs ['0'] ['1'] =
      { newTopBelt := ['0'], newBottomBelt := ['1'], removedPairs := [],
        hasRemovals := false } ∧
    removePairs ['0'] ['1'] =
      { newTopBelt := ['0'], newBottomBelt := ['1'], removedPairs := [],
        hasRemovals := false }) :=
  ⟨by decide, by decide,
    (removals_only_ST ['0'] ['1']).2.2 '0' '1' [] [] (by decide)⟩
